import Mathlib

/-!
Shallow embedding of the secret-encryption core, the environment-name
validator and the pagination slicing of github-env-manager, together with
proofs of the specified properties.

Byte strings are modelled as `List Nat` with every element `< 256`.
The external cryptographic primitives (BLAKE2b, NaCl box, X25519 key
derivation) live behind a `CryptoPrims` record; their documented contracts
(output lengths, byte-valuedness, seal/open correctness) are explicit
hypotheses of the theorems.
-/

namespace GEM

/-- Byte strings: lists of naturals. A well-formed byte is `< 256`. -/
abbrev Bytes := List Nat

/-- All elements of the list are bytes. -/
def IsBytes (bs : Bytes) : Prop := ∀ b ∈ bs, b < 256

instance (bs : Bytes) : Decidable (IsBytes bs) := by
  unfold IsBytes; infer_instance

/-- The standard base64 alphabet, as used by Go `base64.StdEncoding`:
index 0..25 map to A..Z, 26..51 to a..z, 52..61 to 0..9, 62 to +, 63 to /. -/
def b64Char (n : Nat) : Char :=
  if n < 26 then Char.ofNat (65 + n)
  else if n < 52 then Char.ofNat (97 + (n - 26))
  else if n < 62 then Char.ofNat (48 + (n - 52))
  else if n = 62 then '+'
  else '/'

/-- Inverse of the alphabet: `none` for a character outside it
(including the padding character). -/
def b64Val (c : Char) : Option Nat :=
  if 'A' ≤ c ∧ c ≤ 'Z' then some (c.toNat - 65)
  else if 'a' ≤ c ∧ c ≤ 'z' then some (c.toNat - 97 + 26)
  else if '0' ≤ c ∧ c ≤ '9' then some (c.toNat - 48 + 52)
  else if c = '+' then some 62
  else if c = '/' then some 63
  else none

/-- Go `base64.StdEncoding.EncodeToString`: three input bytes become four
alphabet characters; a final group of one or two bytes is padded with `=`. -/
def b64EncodeBytes : Bytes → List Char
  | [] => []
  | [b1] => [b64Char (b1 / 4), b64Char (b1 % 4 * 16), '=', '=']
  | [b1, b2] => [b64Char (b1 / 4), b64Char (b1 % 4 * 16 + b2 / 16),
      b64Char (b2 % 16 * 4), '=']
  | b1 :: b2 :: b3 :: rest =>
      b64Char (b1 / 4) :: b64Char (b1 % 4 * 16 + b2 / 16) ::
      b64Char (b2 % 16 * 4 + b3 / 64) :: b64Char (b3 % 64) :: b64EncodeBytes rest

/-- Go `base64.StdEncoding.DecodeString`: the input must consist of
four-character groups, padding `=` may appear only in the final group
(one or two characters of it), any character outside the alphabet is an
error. Like Go's non-strict decoder, trailing bits hidden under the
padding are not required to be zero. -/
def b64DecodeString : List Char → Option Bytes
  | [] => some []
  | c1 :: c2 :: c3 :: c4 :: rest =>
      if rest = [] ∧ c3 = '=' ∧ c4 = '=' then do
        let v1 ← b64Val c1
        let v2 ← b64Val c2
        pure [v1 * 4 + v2 / 16]
      else if rest = [] ∧ c4 = '=' then do
        let v1 ← b64Val c1
        let v2 ← b64Val c2
        let v3 ← b64Val c3
        pure [v1 * 4 + v2 / 16, v2 % 16 * 16 + v3 / 4]
      else do
        let v1 ← b64Val c1
        let v2 ← b64Val c2
        let v3 ← b64Val c3
        let v4 ← b64Val c4
        let tail ← b64DecodeString rest
        pure ((v1 * 4 + v2 / 16) :: (v2 % 16 * 16 + v3 / 4) :: (v3 % 4 * 64 + v4) :: tail)
  | _ => none

/-- Go `copy(dst[:], src)` into a zero-initialised fixed array `[n]byte`:
the first `min n src.length` bytes come from `src`, the rest stay zero. -/
def copyFixed (n : Nat) (src : Bytes) : Bytes :=
  src.take n ++ List.replicate (n - src.length) 0

/-- Abstract interface to the external cryptographic primitives used by
`encryptSecret`: `blake2b24` is the unkeyed BLAKE2b with 24-byte digest
(the incremental `hash.Write a; hash.Write b; hash.Sum(nil)` of the Go code
equals `blake2b24 (a ++ b)`), `boxSeal msg nonce peersPub ourPriv` is
`box.Seal(nil, msg, nonce, peersPub, ourPriv)`, `boxOpen` the matching
`box.Open`, and `pub sk` the X25519 public key derived from a private key,
so that `box.GenerateKey` returning the pair `(pub sk, sk)` is modelled by
the drawn private key `sk` alone. -/
structure CryptoPrims where
  blake2b24 : Bytes → Bytes
  boxSeal : Bytes → Bytes → Bytes → Bytes → Bytes
  boxOpen : Bytes → Bytes → Bytes → Bytes → Option Bytes
  pub : Bytes → Bytes

/-- Outcome of `box.GenerateKey(rand.Reader)`: either a fresh ephemeral
private key (its public half is `CryptoPrims.pub` of it) drawn from the
random source, or a failure of the random source. -/
inductive GenKeyResult where
  | ok (ephemeralPriv : Bytes)
  | err

/-- Shallow embedding of `encryptSecret` (main.go): decode the base64
public key, copy it into a 32-byte array, generate an ephemeral key pair,
derive the nonce as the BLAKE2b-24 digest of ephemeral-public-key then
recipient-key, seal, prepend the ephemeral public key, base64-encode.
The random draw is the explicit `gen` argument. -/
def encryptSecret (P : CryptoPrims) (gen : GenKeyResult)
    (publicKey : List Char) (secretValue : Bytes) : Except String (List Char) :=
  match b64DecodeString publicKey with
  | none => .error "failed to decode public key"
  | some decodedKey =>
    let recipientKey := copyFixed 32 decodedKey
    match gen with
    | .err => .error "failed to generate key pair"
    | .ok ephemeralPriv =>
      let ephemeralPub := P.pub ephemeralPriv
      let nonce := copyFixed 24 (P.blake2b24 (ephemeralPub ++ recipientKey))
      let encrypted := P.boxSeal secretValue nonce recipientKey ephemeralPriv
      let encryptedMessage := ephemeralPub ++ encrypted
      .ok (b64EncodeBytes encryptedMessage)

/-- Modelled from the spec: the standard sealed-box unsealing, which is not
part of this repository (GitHub performs it server-side). Base64-decode,
read the leading 32-byte ephemeral public key, recompute the BLAKE2b-24
nonce from ephemeral public key then recipient public key, box-open the
remainder with the recipient private key. -/
def unsealSealedBox (P : CryptoPrims) (sealedB64 : List Char)
    (recipientPriv : Bytes) : Option Bytes :=
  match b64DecodeString sealedB64 with
  | none => none
  | some data =>
    if data.length < 32 then none
    else
      let ephemeralPub := data.take 32
      let boxed := data.drop 32
      let nonce := copyFixed 24 (P.blake2b24 (ephemeralPub ++ P.pub recipientPriv))
      P.boxOpen boxed nonce ephemeralPub recipientPriv

/-- Contract of X25519 key derivation: public keys are 32 bytes. -/
def PubLen32 (P : CryptoPrims) : Prop := ∀ sk, (P.pub sk).length = 32

/-- Contract of X25519 key derivation: public keys are byte-valued. -/
def PubBytes (P : CryptoPrims) : Prop := ∀ sk, IsBytes (P.pub sk)

/-- Contract of NaCl box: the ciphertext is the message plus the 16-byte
Poly1305 authentication tag. -/
def SealLen (P : CryptoPrims) : Prop :=
  ∀ m n pk sk, (P.boxSeal m n pk sk).length = m.length + 16

/-- Contract of NaCl box: ciphertexts of byte messages are byte-valued. -/
def SealBytes (P : CryptoPrims) : Prop :=
  ∀ m n pk sk, IsBytes m → IsBytes (P.boxSeal m n pk sk)

/-- Correctness contract of NaCl box: opening with the complementary key
pair recovers the message. -/
def BoxCorrect (P : CryptoPrims) : Prop :=
  ∀ m n skA skB, P.boxOpen (P.boxSeal m n (P.pub skB) skA) n (P.pub skA) skB = some m

/-- Contract of BLAKE2b with digest size 24: digests are 24 bytes long. -/
def HashLen24 (P : CryptoPrims) : Prop := ∀ x, (P.blake2b24 x).length = 24

/-- Validity check performed by `blake2b.New(size, key)` with a nil key:
it returns an error exactly when the requested digest size is outside
1..64. The call in `encryptSecret` uses the constant size 24. -/
def blake2bNewOk (size : Nat) : Bool := 1 ≤ size && size ≤ 64

/-- Concrete primitives satisfying all the contracts, used to witness the
theorems on explicit inputs. -/
def dummyPrims : CryptoPrims where
  blake2b24 := fun _ => List.replicate 24 0
  boxSeal := fun m _ _ _ => m ++ List.replicate 16 0
  boxOpen := fun c _ _ _ => if 16 ≤ c.length then some (c.take (c.length - 16)) else none
  pub := fun sk => copyFixed 32 (sk.map (fun b => b % 256))

/-- Character class accepted by `isValidEnvironmentName` (main.go): the
loop admits lowercase ASCII letters, ASCII digits and the hyphen. -/
def isValidEnvChar (c : Char) : Bool :=
  ('a' ≤ c && c ≤ 'z') || ('0' ≤ c && c ≤ '9') || c = '-'

/-- Go `len` of a string: the number of bytes of its UTF-8 encoding. -/
def utf8Len (s : List Char) : Nat := (s.map Char.utf8Size).sum

/-- Shallow embedding of `isValidEnvironmentName` (main.go): reject a
byte length outside 1..255, then any character outside the class, then a
leading or trailing hyphen. The Go code indexes the first and last byte;
at that point every character is single-byte ASCII, so the head and last
characters coincide with those bytes. -/
def isValidEnvironmentName (name : List Char) : Bool :=
  if utf8Len name < 1 ∨ utf8Len name > 255 then false
  else if name.any (fun c => !(isValidEnvChar c)) then false
  else if name.headD 'a' = '-' ∨ name.getLastD 'a' = '-' then false
  else true

/-- Shallow embedding of the pagination slicing shared by `getRepositories`
and `fallbackRepositorySearch` (main.go): compute `start := (page-1)*perPage`
and `end := start+perPage`, clamp both to the list length, then loop
`for i := start; i < end; i++` appending `all[i]`. The indexing is
modelled with the optional `List.get?` so that in-bounds access is
visible in the result. -/
def paginate {α : Type} (all : List α) (page perPage : Nat) : List (Option α) :=
  let start0 := (page - 1) * perPage
  let end0 := start0 + perPage
  let s := if start0 ≥ all.length then all.length else start0
  let e := if end0 > all.length then all.length else end0
  (List.range' s (e - s)).map (fun i => all.get? i)

/-! ## Theorems -/

theorem b64Val_b64Char : ∀ n < 64, b64Val (b64Char n) = some n := by decide

theorem b64Char_ne_pad : ∀ n < 64, b64Char n ≠ '=' := by decide

/-- Decoding inverts encoding on byte lists. -/
theorem b64_decode_encode : ∀ bs : Bytes, IsBytes bs →
    b64DecodeString (b64EncodeBytes bs) = some bs
  | [], _ => rfl
  | [b1], h => by
    have hb1 : b1 < 256 := h b1 (by simp)
    have h1 := b64Val_b64Char (b1 / 4) (by omega)
    have h2 := b64Val_b64Char (b1 % 4 * 16) (by omega)
    simp [b64EncodeBytes, b64DecodeString, h1, h2]
    omega
  | [b1, b2], h => by
    have hb1 : b1 < 256 := h b1 (by simp)
    have hb2 : b2 < 256 := h b2 (by simp)
    have h1 := b64Val_b64Char (b1 / 4) (by omega)
    have h2 := b64Val_b64Char (b1 % 4 * 16 + b2 / 16) (by omega)
    have h3 := b64Val_b64Char (b2 % 16 * 4) (by omega)
    have hne : b64Char (b2 % 16 * 4) ≠ '=' := b64Char_ne_pad _ (by omega)
    simp [b64EncodeBytes, b64DecodeString, hne, h1, h2, h3]
    omega
  | b1 :: b2 :: b3 :: rest, h => by
    have hb1 : b1 < 256 := h b1 (by simp)
    have hb2 : b2 < 256 := h b2 (by simp)
    have hb3 : b3 < 256 := h b3 (by simp)
    have hrest : IsBytes rest := fun b hb => h b (by simp [hb])
    have ih := b64_decode_encode rest hrest
    have h1 := b64Val_b64Char (b1 / 4) (by omega)
    have h2 := b64Val_b64Char (b1 % 4 * 16 + b2 / 16) (by omega)
    have h3 := b64Val_b64Char (b2 % 16 * 4 + b3 / 64) (by omega)
    have h4 := b64Val_b64Char (b3 % 64) (by omega)
    have hne : b64Char (b3 % 64) ≠ '=' := b64Char_ne_pad _ (by omega)
    simp [b64EncodeBytes, b64DecodeString, hne, h1, h2, h3, h4, ih]
    omega

theorem b64Encode_inj {a b : Bytes} (ha : IsBytes a) (hb : IsBytes b)
    (h : b64EncodeBytes a = b64EncodeBytes b) : a = b := by
  have := b64_decode_encode a ha
  rw [h, b64_decode_encode b hb] at this
  exact Option.some_inj.1 this.symm

theorem copyFixed_length (n : Nat) (src : Bytes) : (copyFixed n src).length = n := by
  simp [copyFixed]; omega

theorem copyFixed_eq_self (n : Nat) (src : Bytes) (h : src.length = n) :
    copyFixed n src = src := by
  simp [copyFixed, h, List.take_of_length_le (le_of_eq h)]

theorem IsBytes.append {a b : Bytes} (ha : IsBytes a) (hb : IsBytes b) :
    IsBytes (a ++ b) := fun x hx => (List.mem_append.1 hx).elim (ha x) (hb x)

theorem dummyPrims_pubLen : PubLen32 dummyPrims :=
  fun sk => copyFixed_length 32 (sk.map (fun b => b % 256))

theorem dummyPrims_pubBytes : PubBytes dummyPrims := by
  intro sk b hb
  simp only [dummyPrims, copyFixed] at hb
  rcases List.mem_append.1 hb with h | h
  · obtain ⟨x, _, rfl⟩ := List.mem_map.1 (List.mem_of_mem_take h)
    omega
  · simp [List.eq_of_mem_replicate h]

theorem dummyPrims_sealLen : SealLen dummyPrims := by
  intro m n pk sk; simp [dummyPrims]

theorem dummyPrims_sealBytes : SealBytes dummyPrims := by
  intro m n pk sk hm b hb
  simp only [dummyPrims] at hb
  rcases List.mem_append.1 hb with h | h
  · exact hm b h
  · simp [List.eq_of_mem_replicate h]

theorem dummyPrims_boxCorrect : BoxCorrect dummyPrims := by
  intro m n skA skB
  simp [dummyPrims, List.take_left]

theorem dummyPrims_hashLen : HashLen24 dummyPrims := by
  intro x; simp [dummyPrims]

/-- Success of `encryptSecret` computed in closed form once the key
decodes: the output encodes the ephemeral public key followed by the
sealed box, whose nonce is the truncated BLAKE2b digest. -/
theorem encryptSecret_ok_eq (P : CryptoPrims) (sk : Bytes) (publicKey : List Char)
    (v dk : Bytes) (hdec : b64DecodeString publicKey = some dk) :
    encryptSecret P (.ok sk) publicKey v =
      .ok (b64EncodeBytes (P.pub sk ++
        P.boxSeal v (copyFixed 24 (P.blake2b24 (P.pub sk ++ copyFixed 32 dk)))
          (copyFixed 32 dk) sk)) := by
  simp [encryptSecret, hdec]

/-- Unsealing recovers the plaintext from a message sealed with the
matching nonce derivation. -/
theorem unseal_of_seal (P : CryptoPrims) (hPL : PubLen32 P) (hPB : PubBytes P)
    (hSB : SealBytes P) (hBC : BoxCorrect P) (skR skE v : Bytes) (hv : IsBytes v) :
    unsealSealedBox P
      (b64EncodeBytes (P.pub skE ++
        P.boxSeal v (copyFixed 24 (P.blake2b24 (P.pub skE ++ P.pub skR)))
          (P.pub skR) skE)) skR = some v := by
  have hct : IsBytes (P.boxSeal v (copyFixed 24 (P.blake2b24 (P.pub skE ++ P.pub skR)))
      (P.pub skR) skE) := hSB _ _ _ _ hv
  have hmsg : IsBytes (P.pub skE ++ P.boxSeal v
      (copyFixed 24 (P.blake2b24 (P.pub skE ++ P.pub skR))) (P.pub skR) skE) :=
    (hPB skE).append hct
  have hdec := b64_decode_encode _ hmsg
  have hlen : (P.pub skE ++ P.boxSeal v
      (copyFixed 24 (P.blake2b24 (P.pub skE ++ P.pub skR))) (P.pub skR) skE).length =
      32 + (P.boxSeal v (copyFixed 24 (P.blake2b24 (P.pub skE ++ P.pub skR)))
        (P.pub skR) skE).length := by
    simp [List.length_append, hPL skE]
  simp only [unsealSealedBox, hdec]
  rw [if_neg (by omega)]
  simp only [List.take_left' (hPL skE), List.drop_left' (hPL skE)]
  exact hBC v _ skE skR

/-- C1: for every recipient key pair whose public key base64-decodes to
exactly 32 bytes and every plaintext byte string (including the empty
string and binary data), decoding the base64 output of `encryptSecret`
and unsealing it with the recipient private key (read the leading 32-byte
ephemeral public key, recompute the BLAKE2b-24 nonce, box-open the
remainder) recovers exactly the original plaintext. -/
theorem C1_encryptSecret_roundtrip (P : CryptoPrims)
    (hPL : PubLen32 P) (hPB : PubBytes P) (hSB : SealBytes P) (hBC : BoxCorrect P)
    (recipientPriv ephemeralPriv : Bytes) (publicKey : List Char)
    (secretValue : Bytes) (hv : IsBytes secretValue)
    (hdec : b64DecodeString publicKey = some (P.pub recipientPriv))
    (out : List Char)
    (henc : encryptSecret P (.ok ephemeralPriv) publicKey secretValue = .ok out) :
    unsealSealedBox P out recipientPriv = some secretValue := by
  rw [encryptSecret_ok_eq P ephemeralPriv publicKey secretValue _ hdec,
      copyFixed_eq_self 32 (P.pub recipientPriv) (hPL recipientPriv)] at henc
  injection henc with h
  subst h
  exact unseal_of_seal P hPL hPB hSB hBC recipientPriv ephemeralPriv secretValue hv

/-- Witness for C1 at concrete inputs. -/
theorem C1_witness :
    unsealSealedBox dummyPrims
      (b64EncodeBytes (dummyPrims.pub [5] ++ ([7, 8] ++ List.replicate 16 0))) [3] =
      some [7, 8] :=
  C1_encryptSecret_roundtrip dummyPrims dummyPrims_pubLen dummyPrims_pubBytes
    dummyPrims_sealBytes dummyPrims_boxCorrect [3] [5]
    (b64EncodeBytes (dummyPrims.pub [3])) [7, 8] (by decide)
    (b64_decode_encode _ (dummyPrims_pubBytes [3]))
    (b64EncodeBytes (dummyPrims.pub [5] ++ ([7, 8] ++ List.replicate 16 0)))
    (by rfl)

/-- C2: the successful output of `encryptSecret` is the standard base64
encoding of the 32-byte ephemeral public key followed by the box
ciphertext, and the decoded byte length equals 32 + plaintext length + 16. -/
theorem C2_encryptSecret_wire_format (P : CryptoPrims)
    (hPL : PubLen32 P) (hPB : PubBytes P) (hSL : SealLen P) (hSB : SealBytes P)
    (ephemeralPriv dk : Bytes) (publicKey : List Char) (secretValue : Bytes)
    (hv : IsBytes secretValue)
    (hdec : b64DecodeString publicKey = some dk) (hdk : dk.length = 32)
    (out : List Char)
    (henc : encryptSecret P (.ok ephemeralPriv) publicKey secretValue = .ok out) :
    out = b64EncodeBytes (P.pub ephemeralPriv ++
        P.boxSeal secretValue
          (copyFixed 24 (P.blake2b24 (P.pub ephemeralPriv ++ dk))) dk ephemeralPriv)
      ∧ b64DecodeString out = some (P.pub ephemeralPriv ++
        P.boxSeal secretValue
          (copyFixed 24 (P.blake2b24 (P.pub ephemeralPriv ++ dk))) dk ephemeralPriv)
      ∧ (P.pub ephemeralPriv ++
        P.boxSeal secretValue
          (copyFixed 24 (P.blake2b24 (P.pub ephemeralPriv ++ dk))) dk
          ephemeralPriv).length = 32 + secretValue.length + 16 := by
  rw [encryptSecret_ok_eq P ephemeralPriv publicKey secretValue dk hdec,
      copyFixed_eq_self 32 dk hdk] at henc
  injection henc with h
  subst h
  refine ⟨rfl, b64_decode_encode _ ((hPB _).append (hSB _ _ _ _ hv)), ?_⟩
  have h1 := hPL ephemeralPriv
  have h2 := hSL secretValue
    (copyFixed 24 (P.blake2b24 (P.pub ephemeralPriv ++ dk))) dk ephemeralPriv
  simp only [List.length_append, h1, h2]
  omega

/-- Witness for C2 at concrete inputs: the decoded length of the output
for a one-byte plaintext is 49 bytes. -/
theorem C2_witness :
    (dummyPrims.pub [5] ++
        dummyPrims.boxSeal [7]
          (copyFixed 24 (dummyPrims.blake2b24 (dummyPrims.pub [5] ++ List.replicate 32 0)))
          (List.replicate 32 0) [5]).length = 32 + ([7] : Bytes).length + 16 :=
  (C2_encryptSecret_wire_format dummyPrims dummyPrims_pubLen dummyPrims_pubBytes
    dummyPrims_sealLen dummyPrims_sealBytes [5] (List.replicate 32 0)
    (b64EncodeBytes (List.replicate 32 0)) [7] (by decide)
    (b64_decode_encode _ (by decide)) (by simp)
    (b64EncodeBytes (dummyPrims.pub [5] ++ ([7] ++ List.replicate 16 0)))
    (by rfl)).2.2

/-- C3: the nonce passed to the box primitive equals the 24-byte unkeyed
BLAKE2b digest of the ephemeral public key followed by the recipient
public key, in that exact order. -/
theorem C3_encryptSecret_nonce (P : CryptoPrims) (hH : HashLen24 P)
    (sk dk : Bytes) (publicKey : List Char) (secretValue : Bytes)
    (hdec : b64DecodeString publicKey = some dk) (hdk : dk.length = 32) :
    encryptSecret P (.ok sk) publicKey secretValue =
      .ok (b64EncodeBytes (P.pub sk ++
        P.boxSeal secretValue (P.blake2b24 (P.pub sk ++ dk)) dk sk)) := by
  rw [encryptSecret_ok_eq P sk publicKey secretValue dk hdec,
      copyFixed_eq_self 32 dk hdk, copyFixed_eq_self 24 _ (hH _)]

/-- Witness for C3 at concrete inputs. -/
theorem C3_witness :
    encryptSecret dummyPrims (.ok [5]) (b64EncodeBytes (List.replicate 32 0)) [7] =
      .ok (b64EncodeBytes (dummyPrims.pub [5] ++
        dummyPrims.boxSeal [7]
          (dummyPrims.blake2b24 (dummyPrims.pub [5] ++ List.replicate 32 0))
          (List.replicate 32 0) [5])) :=
  C3_encryptSecret_nonce dummyPrims dummyPrims_hashLen [5] (List.replicate 32 0)
    (b64EncodeBytes (List.replicate 32 0)) [7]
    (b64_decode_encode _ (by decide)) (by simp)

/-- C4 counterexample: the empty string is valid base64 and decodes to 0
bytes — a length other than 32 — yet `encryptSecret` returns success, not
an error: the decoded key is silently zero-padded to 32 bytes and
encryption proceeds. -/
theorem C4_counterexample :
    encryptSecret dummyPrims (.ok [5]) [] [7] =
      .ok (b64EncodeBytes (dummyPrims.pub [5] ++ ([7] ++ List.replicate 16 0))) := by
  rfl

/-- C4 amended: a public key that fails base64 decoding yields an error
and no encryption is attempted, but a key that decodes to a length other
than 32 bytes is not rejected: the decoded bytes are silently truncated
or zero-padded to 32 bytes and encryption proceeds. -/
theorem C4_encryptSecret_key_validation (P : CryptoPrims)
    (publicKey : List Char) (secretValue : Bytes) :
    (b64DecodeString publicKey = none →
      ∀ g, encryptSecret P g publicKey secretValue =
        .error "failed to decode public key")
    ∧ (∀ dk sk, b64DecodeString publicKey = some dk →
      encryptSecret P (.ok sk) publicKey secretValue =
        .ok (b64EncodeBytes (P.pub sk ++
          P.boxSeal secretValue
            (copyFixed 24 (P.blake2b24 (P.pub sk ++ copyFixed 32 dk)))
            (copyFixed 32 dk) sk))) := by
  constructor
  · intro h g; simp [encryptSecret, h]
  · intro dk sk h; exact encryptSecret_ok_eq P sk publicKey secretValue dk h

/-- Witness for C4 amended: the four-character key QQ== decodes to the
single byte 65, and encryption proceeds with the zero-padded key. -/
theorem C4_witness :
    encryptSecret dummyPrims (.ok [5]) ['Q', 'Q', '=', '='] [7] =
      .ok (b64EncodeBytes (dummyPrims.pub [5] ++
        dummyPrims.boxSeal [7]
          (copyFixed 24 (dummyPrims.blake2b24 (dummyPrims.pub [5] ++ copyFixed 32 [65])))
          (copyFixed 32 [65]) [5])) :=
  (C4_encryptSecret_key_validation dummyPrims ['Q', 'Q', '=', '='] [7]).2 [65] [5] (by rfl)

/-- C5: two invocations that draw distinct ephemeral key pairs (distinct
ephemeral public keys) produce different output strings, yet each output
independently unseals to the plaintext under the recipient private key. -/
theorem C5_encryptSecret_fresh (P : CryptoPrims)
    (hPL : PubLen32 P) (hPB : PubBytes P) (hSB : SealBytes P) (hBC : BoxCorrect P)
    (recipientPriv sk1 sk2 : Bytes) (publicKey : List Char) (secretValue : Bytes)
    (hv : IsBytes secretValue)
    (hdec : b64DecodeString publicKey = some (P.pub recipientPriv))
    (hne : P.pub sk1 ≠ P.pub sk2)
    (out1 out2 : List Char)
    (h1 : encryptSecret P (.ok sk1) publicKey secretValue = .ok out1)
    (h2 : encryptSecret P (.ok sk2) publicKey secretValue = .ok out2) :
    out1 ≠ out2
      ∧ unsealSealedBox P out1 recipientPriv = some secretValue
      ∧ unsealSealedBox P out2 recipientPriv = some secretValue := by
  rw [encryptSecret_ok_eq P sk1 publicKey secretValue _ hdec,
      copyFixed_eq_self 32 _ (hPL recipientPriv)] at h1
  rw [encryptSecret_ok_eq P sk2 publicKey secretValue _ hdec,
      copyFixed_eq_self 32 _ (hPL recipientPriv)] at h2
  injection h1 with h1e
  injection h2 with h2e
  subst h1e; subst h2e
  refine ⟨?_, unseal_of_seal P hPL hPB hSB hBC recipientPriv sk1 secretValue hv,
    unseal_of_seal P hPL hPB hSB hBC recipientPriv sk2 secretValue hv⟩
  intro heq
  have hmeq := b64Encode_inj ((hPB sk1).append (hSB _ _ _ _ hv))
    ((hPB sk2).append (hSB _ _ _ _ hv)) heq
  have ht := congrArg (List.take 32) hmeq
  rw [List.take_left' (hPL sk1), List.take_left' (hPL sk2)] at ht
  exact hne ht

/-- Witness for C5 at concrete inputs: the two outputs differ. -/
theorem C5_witness :
    b64EncodeBytes (dummyPrims.pub [5] ++ ([7] ++ List.replicate 16 0)) ≠
      b64EncodeBytes (dummyPrims.pub [6] ++ ([7] ++ List.replicate 16 0)) :=
  (C5_encryptSecret_fresh dummyPrims dummyPrims_pubLen dummyPrims_pubBytes
    dummyPrims_sealBytes dummyPrims_boxCorrect [3] [5] [6]
    (b64EncodeBytes (dummyPrims.pub [3])) [7] (by decide)
    (b64_decode_encode _ (dummyPrims_pubBytes [3])) (by decide)
    (b64EncodeBytes (dummyPrims.pub [5] ++ ([7] ++ List.replicate 16 0)))
    (b64EncodeBytes (dummyPrims.pub [6] ++ ([7] ++ List.replicate 16 0)))
    (by rfl) (by rfl)).1

/-- C6: with a recipient public key that decodes to exactly 32 bytes,
encrypting the empty plaintext succeeds, the output decodes to exactly
48 bytes, and unsealing with the matching private key yields the empty
string. -/
theorem C6_encryptSecret_empty (P : CryptoPrims)
    (hPL : PubLen32 P) (hPB : PubBytes P) (hSL : SealLen P) (hSB : SealBytes P)
    (hBC : BoxCorrect P) (recipientPriv skE : Bytes) (publicKey : List Char)
    (hdec : b64DecodeString publicKey = some (P.pub recipientPriv)) :
    encryptSecret P (.ok skE) publicKey [] =
      .ok (b64EncodeBytes (P.pub skE ++
        P.boxSeal [] (copyFixed 24 (P.blake2b24 (P.pub skE ++ P.pub recipientPriv)))
          (P.pub recipientPriv) skE))
    ∧ b64DecodeString (b64EncodeBytes (P.pub skE ++
        P.boxSeal [] (copyFixed 24 (P.blake2b24 (P.pub skE ++ P.pub recipientPriv)))
          (P.pub recipientPriv) skE)) =
      some (P.pub skE ++
        P.boxSeal [] (copyFixed 24 (P.blake2b24 (P.pub skE ++ P.pub recipientPriv)))
          (P.pub recipientPriv) skE)
    ∧ (P.pub skE ++
        P.boxSeal [] (copyFixed 24 (P.blake2b24 (P.pub skE ++ P.pub recipientPriv)))
          (P.pub recipientPriv) skE).length = 48
    ∧ unsealSealedBox P (b64EncodeBytes (P.pub skE ++
        P.boxSeal [] (copyFixed 24 (P.blake2b24 (P.pub skE ++ P.pub recipientPriv)))
          (P.pub recipientPriv) skE)) recipientPriv = some [] := by
  have hnil : IsBytes ([] : Bytes) := fun b hb => absurd hb (List.not_mem_nil b)
  have hok := encryptSecret_ok_eq P skE publicKey [] _ hdec
  rw [copyFixed_eq_self 32 _ (hPL recipientPriv)] at hok
  refine ⟨hok, b64_decode_encode _ ((hPB _).append (hSB _ _ _ _ hnil)), ?_,
    unseal_of_seal P hPL hPB hSB hBC recipientPriv skE [] hnil⟩
  have h1 := hPL skE
  have h2 := hSL ([] : Bytes)
    (copyFixed 24 (P.blake2b24 (P.pub skE ++ P.pub recipientPriv)))
    (P.pub recipientPriv) skE
  simp only [List.length_append, h1, h2]
  rfl

/-- Witness for C6 at concrete inputs: the sealed empty plaintext decodes
to 48 bytes. -/
theorem C6_witness :
    (dummyPrims.pub [5] ++
      dummyPrims.boxSeal []
        (copyFixed 24 (dummyPrims.blake2b24 (dummyPrims.pub [5] ++ dummyPrims.pub [3])))
        (dummyPrims.pub [3]) [5]).length = 48 :=
  (C6_encryptSecret_empty dummyPrims dummyPrims_pubLen dummyPrims_pubBytes
    dummyPrims_sealLen dummyPrims_sealBytes dummyPrims_boxCorrect [3] [5]
    (b64EncodeBytes (dummyPrims.pub [3]))
    (b64_decode_encode _ (dummyPrims_pubBytes [3]))).2.2.1

/-- C7: every error a primitive actually produces inside `encryptSecret`
propagates to the immediate caller: a base64 decode failure and a
random-source failure each surface as the corresponding error result, and
with both succeeding the call returns success — there is no other failure
point, since `box.Seal` is total and `blake2b.New` cannot fail at the
constant digest size 24 (recorded by `blake2bNewOk 24 = true`); no error
is swallowed and no fallback to another random source occurs. -/
theorem C7_encryptSecret_errors (P : CryptoPrims) (publicKey : List Char)
    (secretValue : Bytes) :
    (b64DecodeString publicKey = none →
      ∀ g, encryptSecret P g publicKey secretValue =
        .error "failed to decode public key")
    ∧ (b64DecodeString publicKey ≠ none →
      encryptSecret P .err publicKey secretValue =
        .error "failed to generate key pair")
    ∧ (∀ sk, b64DecodeString publicKey ≠ none →
      ∃ out, encryptSecret P (.ok sk) publicKey secretValue = .ok out)
    ∧ blake2bNewOk 24 = true := by
  refine ⟨fun h g => by simp [encryptSecret, h], fun h => ?_, fun sk h => ?_, rfl⟩
  · cases hdk : b64DecodeString publicKey with
    | none => exact absurd hdk h
    | some dk => simp [encryptSecret, hdk]
  · cases hdk : b64DecodeString publicKey with
    | none => exact absurd hdk h
    | some dk => exact ⟨_, encryptSecret_ok_eq P sk publicKey secretValue dk hdk⟩

/-- Witness for C7 at a concrete input: a one-character key is not valid
base64 and the decode error is returned. -/
theorem C7_witness :
    encryptSecret dummyPrims .err ['*'] [7] =
      .error "failed to decode public key" :=
  (C7_encryptSecret_errors dummyPrims ['*'] [7]).1 (by rfl) .err

/-- C10: for a fixed draw from the random source, `encryptSecret` is a
deterministic function of its two arguments: two runs with the same
public key, the same secret value and the same random bytes produce
identical outputs and identical error results. -/
theorem C10_encryptSecret_deterministic (P : CryptoPrims)
    (g1 g2 : GenKeyResult) (pk1 pk2 : List Char) (v1 v2 : Bytes)
    (hg : g1 = g2) (hpk : pk1 = pk2) (hv : v1 = v2) :
    encryptSecret P g1 pk1 v1 = encryptSecret P g2 pk2 v2 := by
  subst hg; subst hpk; subst hv; rfl

/-- Witness for C10 at concrete inputs. -/
theorem C10_witness :
    encryptSecret dummyPrims (.ok [5]) [] [7] =
      encryptSecret dummyPrims (.ok [5]) [] [7] :=
  C10_encryptSecret_deterministic dummyPrims (.ok [5]) (.ok [5]) [] [] [7] [7]
    rfl rfl rfl

theorem utf8Size_of_valid (c : Char) (h : isValidEnvChar c = true) :
    c.utf8Size = 1 := by
  have hv : c.val.toNat ≤ 122 := by
    simp only [isValidEnvChar, Bool.or_eq_true, Bool.and_eq_true,
      decide_eq_true_eq] at h
    rcases h with (⟨h1, h2⟩ | ⟨h1, h2⟩) | h1
    · exact h2
    · have h3 : c.val.toNat ≤ 57 := h2
      omega
    · subst h1; decide
  have h2 : c.val ≤ UInt32.ofNatCore 127 Char.utf8Size.proof_1 := by
    show c.val.toNat ≤ 127
    omega
  simp only [Char.utf8Size]
  rw [if_pos h2]

theorem utf8Len_of_valid : ∀ s : List Char,
    (∀ c ∈ s, isValidEnvChar c = true) → utf8Len s = s.length
  | [], _ => rfl
  | c :: cs, h => by
    have hc := utf8Size_of_valid c (h c (by simp))
    have ih := utf8Len_of_valid cs (fun x hx => h x (by simp [hx]))
    simp only [utf8Len, List.map_cons, List.sum_cons, List.length_cons] at ih ⊢
    omega

/-- C8: `isValidEnvironmentName name` is true iff the name has between 1
and 255 characters, every character is a lowercase ASCII letter, an ASCII
digit or a hyphen, and the name neither starts nor ends with a hyphen.
(The Go length check counts UTF-8 bytes, which coincides with the
character count whenever every character is in the allowed ASCII class.) -/
theorem C8_isValidEnvironmentName_iff (name : List Char) :
    isValidEnvironmentName name = true ↔
      (1 ≤ name.length ∧ name.length ≤ 255
        ∧ (∀ c ∈ name, isValidEnvChar c = true)
        ∧ name.headD 'a' ≠ '-' ∧ name.getLastD 'a' ≠ '-') := by
  unfold isValidEnvironmentName
  constructor
  · intro h
    by_cases h1 : utf8Len name < 1 ∨ utf8Len name > 255
    · rw [if_pos h1] at h; exact absurd h (by simp)
    · rw [if_neg h1] at h
      by_cases h2 : name.any (fun c => !(isValidEnvChar c)) = true
      · rw [if_pos h2] at h; exact absurd h (by simp)
      · rw [if_neg h2] at h
        by_cases h3 : name.headD 'a' = '-' ∨ name.getLastD 'a' = '-'
        · rw [if_pos h3] at h; exact absurd h (by simp)
        · have hall : ∀ c ∈ name, isValidEnvChar c = true := by
            intro c hc
            by_contra hcc
            exact h2 (List.any_eq_true.2 ⟨c, hc, by simp [hcc]⟩)
          have hlen := utf8Len_of_valid name hall
          push_neg at h1 h3
          exact ⟨by omega, by omega, hall, h3.1, h3.2⟩
  · rintro ⟨hl1, hl2, hall, hh, ht⟩
    have hlen := utf8Len_of_valid name hall
    have hany : name.any (fun c => !(isValidEnvChar c)) = false := by
      rw [List.any_eq_false]
      intro c hcm
      simp [hall c hcm]
    rw [if_neg (by omega), if_neg (by simp [hany]), if_neg (by tauto)]

/-- Witness for C8 at a concrete input. -/
theorem C8_witness : isValidEnvironmentName ['a', 'b', '1'] = true :=
  (C8_isValidEnvironmentName_iff ['a', 'b', '1']).2 (by decide)

theorem range'_map_get? {α : Type} : ∀ (k s : Nat) (l : List α),
    s + k ≤ l.length →
    (List.range' s k).map l.get? = ((l.drop s).take k).map some
  | 0, s, l, _ => by simp
  | k + 1, s, l, h => by
    have hs : s < l.length := by omega
    have ih := range'_map_get? k (s + 1) l (by omega)
    rw [List.range'_succ, List.drop_eq_getElem_cons hs, List.take_succ_cons,
      List.map_cons, List.map_cons, ih, List.get?_eq_getElem?,
      List.getElem?_eq_getElem hs]

/-- C9: the pagination slicing shared by `getRepositories` and
`fallbackRepositorySearch` clamps start and end to the list length before
iterating, so every index accessed is in bounds (every returned element is
`some`), the page is the contiguous sub-list of the input starting at
(page-1)*perPage, it has at most perPage elements, and it is empty when
(page-1)*perPage is at least the list length. -/
theorem C9_paginate_spec {α : Type} (all : List α) (page perPage : Nat)
    (_hp : 1 ≤ page) (hpp : 1 ≤ perPage) :
    paginate all page perPage =
        ((all.drop ((page - 1) * perPage)).take perPage).map some
      ∧ (paginate all page perPage).length ≤ perPage
      ∧ (all.length ≤ (page - 1) * perPage → paginate all page perPage = []) := by
  have hmain : paginate all page perPage =
      ((all.drop ((page - 1) * perPage)).take perPage).map some := by
    simp only [paginate]
    by_cases h1 : (page - 1) * perPage ≥ all.length
    · rw [if_pos h1, if_pos (by omega)]
      simp [List.drop_eq_nil_of_le h1]
    · rw [if_neg h1]
      by_cases h2 : (page - 1) * perPage + perPage > all.length
      · rw [if_pos h2]
        have hk : (page - 1) * perPage + (all.length - (page - 1) * perPage) ≤
            all.length := by omega
        rw [range'_map_get? _ _ _ hk]
        have hd : (all.drop ((page - 1) * perPage)).length =
            all.length - (page - 1) * perPage := List.length_drop _ _
        rw [List.take_of_length_le (by omega), List.take_of_length_le (by omega)]
      · rw [if_neg h2]
        have hk : (page - 1) * perPage + ((page - 1) * perPage + perPage -
            (page - 1) * perPage) ≤ all.length := by omega
        rw [range'_map_get? _ _ _ hk]
        congr 2
        omega
  refine ⟨hmain, ?_, ?_⟩
  · rw [hmain]
    simp only [List.length_map, List.length_take]
    omega
  · intro hge
    rw [hmain, List.drop_eq_nil_of_le hge]
    simp

/-- Witness for C9 at concrete inputs. -/
theorem C9_witness :
    paginate ([10, 20, 30] : List Nat) 2 2 =
        ((([10, 20, 30] : List Nat).drop ((2 - 1) * 2)).take 2).map some
      ∧ (paginate ([10, 20, 30] : List Nat) 2 2).length ≤ 2
      ∧ (([10, 20, 30] : List Nat).length ≤ (2 - 1) * 2 →
        paginate ([10, 20, 30] : List Nat) 2 2 = []) :=
  C9_paginate_spec [10, 20, 30] 2 2 (by decide) (by decide)

end GEM
